import Mathlib

/-!
Verification of the history post-processing pipeline implemented in
src/sweagent/agent/history_processors.py.

Text content of records is modelled as a list of characters (the Python
str); record and segment dictionaries are modelled as structures; in-place
mutation is modelled by explicit value passing; Python assertions and
uncaught exceptions are modelled with Option (none = the call raises).
-/

/-- Text of a record, modelled as a list of characters. -/
abbrev Str := List Char

/-- A content segment dictionary: a text segment or an image segment, each
optionally carrying a cache_control marker (modelled as a Bool flag, since
the marker value is always the same ephemeral object). -/
inductive ContentItem where
  | text (t : Str) (cc : Bool)
  | image (url : Str) (cc : Bool)
deriving DecidableEq

/-- The content field of a record: either a plain string or a list of
segment dictionaries. -/
inductive Content where
  | str (s : Str)
  | items (l : List ContentItem)
deriving DecidableEq

/-- One history record (a HistoryItem dictionary).  Only the keys the
processors read are modelled.  tool_calls keeps only the function names,
which is all the source reads from it.  Tag and role values are modelled
as Lean strings since only equality tests are applied to them. -/
structure HistoryItem where
  role : String
  content : Content
  message_type : Option String := none
  tags : List String := []
  is_demo : Bool := false
  tool_calls : List String := []
  cache_control : Bool := false
deriving DecidableEq

/-- Number of lines of a string as str.splitlines counts them (newline is
the only separator occurring in the modelled contents): the number of
newline characters, plus one for a final line not ended by a newline. -/
def countLines (s : Str) : Nat :=
  if s = [] then 0
  else s.count '\n' + (if s.getLast? = some '\n' then 0 else 1)

/-- Embeds _get_content_stats: (number of text lines, number of images). -/
def contentStats (c : Content) : Nat × Nat :=
  match c with
  | Content.str s => (countLines s, 0)
  | Content.items l =>
    ((l.map (fun it => match it with
        | ContentItem.text t _ => countLines t
        | ContentItem.image _ _ => 0)).sum,
     (l.filter (fun it => match it with
        | ContentItem.text _ _ => false
        | ContentItem.image _ _ => true)).length)

/-- Nonempty intersection test between a record tag list (read as a set)
and a configured tag set. -/
def tagsIntersect (a b : List String) : Bool :=
  a.any (fun t => decide (t ∈ b))

/-! ## LastNObservations (Elision) -/

/-- Configuration of the LastNObservations processor.  The field validator
requires n to be positive; polling defaults to 1 (a zero polling value
would make the Python code raise a division error, so theorems assume it
positive). -/
structure LastNObservations where
  n : Nat
  polling : Nat := 1
  always_remove_output_for_tags : List String := ["remove_output"]
  always_keep_output_for_tags : List String := ["keep_output"]
deriving DecidableEq

/-- Indices (starting at base index k) of the non-demo observation records,
embedding the list comprehension in _get_omit_indices. -/
def obsIndicesFrom (k : Nat) : List HistoryItem → List Nat
  | [] => []
  | e :: rest =>
    if e.message_type = some ("observation") ∧ e.is_demo = false
    then k :: obsIndicesFrom (k + 1) rest
    else obsIndicesFrom (k + 1) rest

/-- Embeds LastNObservations._get_omit_indices.  The Python slice
obs[1:last_removed] is (obs.drop 1).take (last_removed - 1); the max(0, ...)
is truncated Nat subtraction. -/
def omitIndices (cfg : LastNObservations) (h : List HistoryItem) : List Nat :=
  let obs := obsIndicesFrom 0 h
  let lastRemoved := (obs.length / cfg.polling) * cfg.polling - cfg.n
  (obs.drop 1).take (lastRemoved - 1)

/-- The elision summary content built from the original content of a
collapsed record. -/
def summaryContent (c : Content) : Content :=
  let st := contentStats c
  Content.str ((("Old environment output: (" ++ toString st.1 ++ " lines omitted)")
      ++ (if st.2 > 0 then " (" ++ toString st.2 ++ " images omitted)" else "")).toList)

/-- Per-record body of LastNObservations.__call__: keep the record, collapse
it, or raise (none) when the assertion that a collapsed record is an
observation fails. -/
def elideEntry (cfg : LastNObservations) (om : List Nat) (i : Nat)
    (e : HistoryItem) : Option HistoryItem :=
  if ((¬ i ∈ om) ∨ tagsIntersect e.tags cfg.always_keep_output_for_tags = true)
      ∧ tagsIntersect e.tags cfg.always_remove_output_for_tags = false
  then some e
  else if e.message_type = some ("observation")
  then some { e with content := summaryContent e.content }
  else none

/-- The loop of LastNObservations.__call__ with its running index. -/
def elideFrom (cfg : LastNObservations) (om : List Nat) :
    Nat → List HistoryItem → Option (List HistoryItem)
  | _, [] => some []
  | i, e :: rest =>
    match elideEntry cfg om i e with
    | none => none
    | some e2 =>
      match elideFrom cfg om (i + 1) rest with
      | none => none
      | some r => some (e2 :: r)

/-- Embeds LastNObservations.__call__. -/
def lastNApply (cfg : LastNObservations) (h : List HistoryItem) :
    Option (List HistoryItem) :=
  elideFrom cfg (omitIndices cfg h) 0 h

/-! ## ClosedWindowHistoryProcessor (Window-Collapse)

The line pattern (MULTILINE, lazy) matches exactly the lines that begin
with one or more digits followed by a colon; each match spans the whole
line including its terminating newline (or ends at the end of the string
for a final line without one).  The content is therefore modelled through
its decomposition into newline-separated pieces. -/

/-- Split a string at newline characters (the pieces carry no newline). -/
def splitNl : Str → List Str
  | [] => [[]]
  | c :: rest =>
    if c = '\n' then [] :: splitNl rest
    else
      match splitNl rest with
      | [] => [[c]]
      | p :: ps => (c :: p) :: ps

/-- Whether a line matches the per-line window pattern: one or more digits
followed by a colon. -/
def isWindowLine (p : Str) : Bool :=
  decide (p.takeWhile (fun c => c.isDigit) ≠ []) &&
  (match p.dropWhile (fun c => c.isDigit) with
   | ':' :: _ => true
   | _ => false)

/-- Indices (from base k) of the window lines among the pieces. -/
def windowIdxsFrom (k : Nat) : List Str → List Nat
  | [] => []
  | p :: ps =>
    if isWindowLine p then k :: windowIdxsFrom (k + 1) ps
    else windowIdxsFrom (k + 1) ps

/-- Whether the content has at least one window line match. -/
def hasWindowLines (s : Str) : Bool :=
  decide (windowIdxsFrom 0 (splitNl s) ≠ [])

/-- Join pieces, each followed by a newline (the text before the first
match: every piece there was terminated by a newline in the original). -/
def joinLinesNl (l : List Str) : Str :=
  l.foldr (fun p acc => p ++ '\n' :: acc) []

/-- Join pieces with separating newlines (the text after the last match:
the final piece keeps its missing trailing newline). -/
def interNl : List Str → Str
  | [] => []
  | [p] => p
  | p :: ps => p ++ '\n' :: interNl ps

/-- The replacement line announcing an omitted window of k lines. -/
def summaryLine (k : Nat) : Str :=
  ("Outdated window with " ++ toString k ++ " lines omitted...").toList

/-- The collapsed content: the slice from the start of the first window
line to the end of the last one (newline included) is replaced by the
summary line followed by a newline. -/
def rewriteWindow (s : Str) : Str :=
  let ps := splitNl s
  let idxs := windowIdxsFrom 0 ps
  match idxs with
  | [] => s
  | i :: _ =>
    joinLinesNl (ps.take i) ++ summaryLine idxs.length
      ++ '\n' :: interNl (ps.drop (idxs.getLastD i + 1))

/-- Python regex class \s (space, tab, newline, carriage return, vertical
tab, form feed). -/
def isWsChar (c : Char) : Bool :=
  c = ' ' ∨ c = '\t' ∨ c = '\n' ∨ c = '\r' ∨ c = '\x0b' ∨ c = '\x0c'

/-- Strip a literal from the front of a string. -/
def dropLit (pat : Str) (s : Str) : Option Str :=
  if pat.isPrefixOf s then some (s.drop pat.length) else none

/-- The part of the file pattern after the capture group: whitespace, an
opening parenthesis, digits, whitespace, the words lines total, a closing
parenthesis and a closing bracket.  Each repetition here is deterministic:
shrinking a greedy run would place a character of the same class where a
different literal is required. -/
def parseTail (t : Str) : Bool :=
  let w := t.takeWhile isWsChar
  if w = [] then false
  else
    match t.drop w.length with
    | '(' :: r1 =>
      let ds := r1.takeWhile (fun c => c.isDigit)
      if ds = [] then false
      else
        let r2 := r1.drop ds.length
        let w2 := r2.takeWhile isWsChar
        if w2 = [] then false
        else (dropLit ("lines total)]".toList) (r2.drop w2.length)).isSome
    | _ => false

/-- Greedy search for the capture group end: the longest newline-free
group prefix of t whose remainder matches the pattern tail. -/
def findGreedyQ (t : Str) : Nat → Option Str
  | 0 => if parseTail t then some [] else none
  | q + 1 =>
    if parseTail (t.drop (q + 1)) then some (t.take (q + 1))
    else findGreedyQ t q

/-- Match attempt for the text after the literal of the file pattern:
one or more whitespace characters (tried greedily, longest run first as
the regex engine does), then the greedy newline-free capture group. -/
def tryWsSplit (r : Str) : Nat → Option Str
  | 0 => none
  | w + 1 =>
    let t := r.drop (w + 1)
    match findGreedyQ t (t.takeWhile (fun c => ¬ c = '\n')).length with
    | some g => some g
    | none => tryWsSplit r w

/-- Group extraction after the literal opening of the file pattern. -/
def fileGroupAt (r : Str) : Option Str :=
  tryWsSplit r (r.takeWhile isWsChar).length

/-- Embeds re.search of the file identifier pattern: leftmost position
first; at each position require the literal opening, then whitespace and
the greedy capture group followed by the pattern tail. -/
def fileOfGo : Str → Option Str
  | [] => none
  | c :: rest =>
    match dropLit ("[File:".toList) (c :: rest) with
    | some r =>
      match fileGroupAt r with
      | some g => some g
      | none => fileOfGo rest
    | none => fileOfGo rest

/-- The extracted file identifier of a content string, if any. -/
def fileOf (s : Str) : Option Str := fileOfGo s

/-- The reverse scan of ClosedWindowHistoryProcessor.__call__ over the
newest-first record list, threading the set of files already seen.  A
record whose content is a segment list makes the regex call raise (none).
A non-demo user record with window lines but no file identifier is
skipped (the continue statement), so it is dropped from the output. -/
def cwAux : List Str → List HistoryItem → Option (List HistoryItem)
  | _, [] => some []
  | windows, e :: rest =>
    if ¬ e.role = "user" then (cwAux windows rest).map (e :: ·)
    else if e.is_demo then (cwAux windows rest).map (e :: ·)
    else
      match e.content with
      | Content.items _ => none
      | Content.str s =>
        if hasWindowLines s then
          match fileOf s with
          | none => cwAux windows rest
          | some f =>
            if f ∈ windows then
              (cwAux (f :: windows) rest).map
                ({ e with content := Content.str (rewriteWindow s) } :: ·)
            else (cwAux (f :: windows) rest).map (e :: ·)
        else (cwAux windows rest).map (e :: ·)

/-- Embeds ClosedWindowHistoryProcessor.__call__. -/
def closedWindowRun (h : List HistoryItem) : Option (List HistoryItem) :=
  (cwAux [] h.reverse).map List.reverse

/-- Records kept by Window-Collapse: everything except non-demo user
records that contain window lines but no file identifier. -/
def keepPredCW (e : HistoryItem) : Bool :=
  ! (decide (e.role = "user") && ! e.is_demo &&
     (match e.content with
      | Content.str s => hasWindowLines s && (fileOf s).isNone
      | Content.items _ => false))

/-- Equality of all record fields except content. -/
def sameExceptContent (a b : HistoryItem) : Prop :=
  a.role = b.role ∧ a.message_type = b.message_type ∧ a.tags = b.tags ∧
  a.is_demo = b.is_demo ∧ a.tool_calls = b.tool_calls ∧
  a.cache_control = b.cache_control

/-! ## CacheControlHistoryProcessor -/

/-- Configuration of the cache control processor. -/
structure CacheControlHistoryProcessor where
  last_n_messages : Int := 2
  last_n_messages_offset : Int := 0
  tagged_roles : List String := ["user", "tool"]
deriving DecidableEq

/-- Removing the cache_control key of one segment dictionary. -/
def clearItemCC : ContentItem → ContentItem
  | ContentItem.text t _ => ContentItem.text t false
  | ContentItem.image u _ => ContentItem.image u false

/-- Embeds _clear_cache_control: drop the marker of every segment and of
the record itself. -/
def clearCC (e : HistoryItem) : HistoryItem :=
  { e with
    content :=
      match e.content with
      | Content.str s => Content.str s
      | Content.items l => Content.items (l.map clearItemCC),
    cache_control := false }

/-- Setting the marker on one segment dictionary. -/
def setItemCC : ContentItem → ContentItem
  | ContentItem.text t _ => ContentItem.text t true
  | ContentItem.image u _ => ContentItem.image u true

/-- Marker assignment on the first segment.  On an empty segment list the
Python indexing would raise; the data model invariant (segment sequences
are nonempty) makes that case unreachable, and it is modelled as a no-op. -/
def setHeadCC : List ContentItem → List ContentItem
  | [] => []
  | it :: l => setItemCC it :: l

/-- Marker removal on the first segment (the pop in the tool-role branch). -/
def clearHeadCC : List ContentItem → List ContentItem
  | [] => []
  | it :: l => clearItemCC it :: l

/-- Embeds _set_cache_control: string content is wrapped into a single
marked text segment, list content gets the marker on its first segment;
for tool-role records the segment marker is popped again and the record
itself carries the marker instead. -/
def setCC (e : HistoryItem) : HistoryItem :=
  let e1 :=
    match e.content with
    | Content.str s => { e with content := Content.items [ContentItem.text s true] }
    | Content.items l => { e with content := Content.items (setHeadCC l) }
  if e1.role = "tool" then
    { e1 with
      content :=
        match e1.content with
        | Content.items l => Content.items (clearHeadCC l)
        | c => c,
      cache_control := true }
  else e1

/-- Whether the record at reverse position i is a candidate for tagging
(role selected and position at least the offset). -/
def ccEligible (cfg : CacheControlHistoryProcessor) (i : Nat) (e : HistoryItem) : Bool :=
  decide (e.role ∈ cfg.tagged_roles) && decide (cfg.last_n_messages_offset ≤ (i : Int))

/-- The loop of CacheControlHistoryProcessor.__call__ over the newest-first
list, with the running reverse index and the count of records tagged. -/
def ccAux (cfg : CacheControlHistoryProcessor) : Nat → Int → List HistoryItem → List HistoryItem
  | _, _, [] => []
  | i, t, e :: rest =>
    if t < cfg.last_n_messages ∧ ccEligible cfg i e = true
    then setCC (clearCC e) :: ccAux cfg (i + 1) (t + 1) rest
    else clearCC e :: ccAux cfg (i + 1) t rest

/-- Embeds CacheControlHistoryProcessor.__call__ (the value of the list it
returns). -/
def cacheControlRun (cfg : CacheControlHistoryProcessor) (h : List HistoryItem) :
    List HistoryItem :=
  (ccAux cfg 0 0 h.reverse).reverse

/-- Number of tagging candidates strictly before reverse position i. -/
def ccEligCount (cfg : CacheControlHistoryProcessor) (l : List HistoryItem) (i : Nat) : Nat :=
  (l.take i).enum.countP (fun q => ccEligible cfg q.1 q.2)

/-- Positionwise spec of the loop over the suffix starting at reverse
position i: a record is tagged exactly when it is a candidate and fewer
than last_n_messages candidates precede it. -/
def ccSpecGo (cfg : CacheControlHistoryProcessor) (l : List HistoryItem) :
    Nat → List HistoryItem → List HistoryItem
  | _, [] => []
  | i, e :: r =>
    (if (ccEligCount cfg l i : Int) < cfg.last_n_messages ∧ ccEligible cfg i e = true
     then setCC (clearCC e) else clearCC e) :: ccSpecGo cfg l (i + 1) r

/-- The value of the caller's input list after the call: the loop mutates
each record object of the input in place (clear, then possibly set), so
the input records afterwards carry exactly the values the returned list
holds at the same positions. -/
def cacheControlAfterCall (cfg : CacheControlHistoryProcessor) (h : List HistoryItem) :
    List HistoryItem :=
  (ccSpecGo cfg h.reverse 0 h.reverse).reverse

/-! ## TagToolCallObservations -/

/-- Configuration of the tag propagation processor (default: an empty
function name set). -/
structure TagToolCallObservations where
  tags : List String := ["keep_output"]
  function_names : List String := []
deriving DecidableEq

/-- Embeds _should_add_tags. -/
def shouldAddTags (cfg : TagToolCallObservations) (e : HistoryItem) : Bool :=
  decide (e.message_type = some ("action")) &&
  decide (e.tool_calls ≠ []) &&
  cfg.function_names.any (fun n => decide (n ∈ e.tool_calls))

/-- Embeds _add_tags.  The tag list is read as a set and the configured
tags are unioned in; the set has no specified order in Python, modelled
here as the existing tags followed by the newly added ones. -/
def addTagsTo (cfg : TagToolCallObservations) (e : HistoryItem) : HistoryItem :=
  { e with tags := e.tags ++ cfg.tags.filter (fun t => decide (¬ t ∈ e.tags)) }

/-- Embeds TagToolCallObservations.__call__ (the value of the returned
list, which is the input list object itself). -/
def tagToolCallRun (cfg : TagToolCallObservations) : List HistoryItem → List HistoryItem
  | [] => []
  | e :: r => (if shouldAddTags cfg e then addTagsTo cfg e else e) :: tagToolCallRun cfg r

/-- The value of the caller's input list after the call: each matching
record object was mutated in place by _add_tags, and the function returns
that same list object. -/
def tagToolCallAfterCall (cfg : TagToolCallObservations) (h : List HistoryItem) :
    List HistoryItem :=
  h.map (fun e => if shouldAddTags cfg e then addTagsTo cfg e else e)

/-! ## RemoveRegex

The processor is modelled with its default pattern list.  Under DOTALL the
greedy pattern has exactly one match per string when one exists: it starts
at the first occurrence of the opening tag and ends at the end of the last
occurrence of the closing tag (re.sub then continues after the match,
where no closing tag remains). -/

/-- Index of the first occurrence of a pattern. -/
def findIdxFrom (pat : Str) : Str → Option Nat
  | [] => none
  | c :: rest =>
    if pat.isPrefixOf (c :: rest) then some 0
    else (findIdxFrom pat rest).map (· + 1)

/-- Index of the last occurrence of a pattern. -/
def findLastIdx (pat : Str) : Str → Option Nat
  | [] => none
  | c :: rest =>
    match findLastIdx pat rest with
    | some j => some (j + 1)
    | none => if pat.isPrefixOf (c :: rest) then some 0 else none

/-- Embeds re.sub of the default pattern with DOTALL on one string. -/
def removeDiff (s : Str) : Str :=
  match findIdxFrom ("<diff>".toList) s, findLastIdx ("</diff>".toList) s with
  | some i, some j => if i + 6 ≤ j then s.take i ++ s.drop (j + 7) else s
  | _, _ => s

/-- Pattern application to one record: per text segment when the content
is segmented, directly on a plain string. -/
def removeRegexEntry (e : HistoryItem) : HistoryItem :=
  { e with
    content :=
      match e.content with
      | Content.str s => Content.str (removeDiff s)
      | Content.items l =>
        Content.items (l.map (fun it =>
          match it with
          | ContentItem.text t cc => ContentItem.text (removeDiff t) cc
          | img => img)) }

/-- The loop of RemoveRegex.__call__ over the newest-first list: the last
keep_last records pass unchanged (they are deep copies of the input, equal
in value). -/
def removeRegexAux (keepLast : Nat) : Nat → List HistoryItem → List HistoryItem
  | _, [] => []
  | i, e :: rest =>
    (if i < keepLast then e else removeRegexEntry e) :: removeRegexAux keepLast (i + 1) rest

/-- Embeds RemoveRegex.__call__ with the default pattern list. -/
def removeRegexRun (keepLast : Nat) (h : List HistoryItem) : List HistoryItem :=
  (removeRegexAux keepLast 0 h.reverse).reverse

/-! ## ImageParsingHistoryProcessor -/

/-- One image markdown match: the text since the previous match, the alt
text, the raw MIME type and the base64 payload. -/
structure ImgMatch where
  pre : Str
  alt : Str
  mime : Str
  payload : Str
deriving DecidableEq

/-- Split a string at the first occurrence of a character: the part before
it (not containing it) and the part after it. -/
def splitAtChar (c : Char) : Str → Option (Str × Str)
  | [] => none
  | d :: rest =>
    if d = c then some ([], rest)
    else (splitAtChar c rest).map (fun p => (d :: p.1, p.2))

/-- Match attempt of the image pattern at the start of s.  The character
classes of the pattern are each bounded by a distinct delimiter, so greedy
matching is deterministic: alt text up to the first closing bracket, MIME
type (nonempty) up to the first semicolon, payload (nonempty) up to the
first closing parenthesis. -/
def tryImageAt (s : Str) : Option (Str × Str × Str × Str) :=
  match s with
  | '!' :: '[' :: r0 =>
    match splitAtChar ']' r0 with
    | none => none
    | some (alt, r1) =>
      match dropLit ("(data:".toList) r1 with
      | none => none
      | some r2 =>
        match splitAtChar ';' r2 with
        | none => none
        | some (mime, r3) =>
          if mime = [] then none
          else
            match dropLit ("base64,".toList) r3 with
            | none => none
            | some r4 =>
              match splitAtChar ')' r4 with
              | none => none
              | some (payload, r5) =>
                if payload = [] then none else some (alt, mime, payload, r5)
  | _ => none

/-- The scan of finditer: leftmost matches, non-overlapping, with the text
between matches recorded.  The fuel argument bounds the recursion; any
fuel at least the length of the string gives the full scan. -/
def scanFuel : Nat → Str → List ImgMatch × Str
  | 0, s => ([], s)
  | fuel + 1, s =>
    match s with
    | [] => ([], [])
    | c :: rest =>
      match tryImageAt (c :: rest) with
      | some (alt, mime, payload, after) =>
        let r := scanFuel fuel after
        (⟨[], alt, mime, payload⟩ :: r.1, r.2)
      | none =>
        let r := scanFuel fuel rest
        match r with
        | ([], trail) => ([], c :: trail)
        | (m :: tl, trail) => ({ m with pre := c :: m.pre } :: tl, trail)

/-- All image markdown matches of a string and the trailing text. -/
def scanImages (s : Str) : List ImgMatch × Str := scanFuel s.length s

/-- MIME normalization performed by the source. -/
def normalizeJpg (m : Str) : Str :=
  if m = ("image/jpg".toList) then ("image/jpeg".toList) else m

/-- The default allowed MIME type set. -/
def defaultAllowed : List Str :=
  [("image/png".toList), ("image/jpeg".toList), ("image/webp".toList)]

/-- The data URI stored in an emitted image segment. -/
def dataUri (mime payload : Str) : Str :=
  ("data:".toList) ++ mime ++ (";base64,".toList) ++ payload

/-- The full markdown text of a match (used when the MIME type is
rejected, and for reconstruction statements). -/
def mdText (m : ImgMatch) : Str :=
  '!' :: '[' :: m.alt ++ ']' :: '(' :: ("data:".toList) ++ m.mime
    ++ (';' :: ("base64,".toList)) ++ m.payload ++ [')']

/-- The markdown opening emitted as a text segment before an accepted
image (group 1 of the pattern). -/
def mdOpenText (m : ImgMatch) : Str :=
  '!' :: '[' :: m.alt ++ (']' :: '(' :: ("data:".toList))

/-- Embeds the add_text closure: append text, merging into a trailing text
segment.  The segment list is built newest-first here and reversed at the
end. -/
def addTextRev (t : Str) (racc : List ContentItem) : List ContentItem :=
  if t = [] then racc
  else
    match racc with
    | ContentItem.text t0 cc :: rest => ContentItem.text (t0 ++ t) cc :: rest
    | _ => ContentItem.text t false :: racc

/-- The match loop of _parse_images over the scanned matches. -/
def parseImagesGo (allowed : List Str) :
    List ImgMatch → Str → List ContentItem → Bool → List ContentItem × Bool
  | [], trail, racc, has => (addTextRev trail racc, has)
  | m :: ms, trail, racc, has =>
    let racc1 := addTextRev m.pre racc
    let mime := normalizeJpg m.mime
    if mime ∈ allowed then
      let racc2 := addTextRev (mdOpenText m) racc1
      let racc3 := ContentItem.image (dataUri mime m.payload) false :: racc2
      let racc4 := addTextRev [')'] racc3
      parseImagesGo allowed ms trail racc4 true
    else parseImagesGo allowed ms trail (addTextRev (mdText m) racc1) has

/-- Embeds ImageParsingHistoryProcessor._parse_images. -/
def parseImages (allowed : List Str) (s : Str) : List ContentItem :=
  let sc := scanImages s
  let r := parseImagesGo allowed sc.1 sc.2 [] false
  if r.2 then r.1.reverse else [ContentItem.text s false]

/-- Whether a segment is an image segment. -/
def isImageSeg : ContentItem → Bool
  | ContentItem.image _ _ => true
  | ContentItem.text _ _ => false

/-- Embeds ImageParsingHistoryProcessor._process_entry.  Reading the
content text raises (none) when the content is a segment list that does
not consist of exactly one text segment. -/
def processEntry (allowed : List Str) (e : HistoryItem) : Option HistoryItem :=
  if ¬ e.role = "user" ∧ ¬ e.role = "tool" then some e
  else
    match
      (match e.content with
       | Content.str s => some s
       | Content.items [ContentItem.text t _] => some t
       | Content.items _ => none) with
    | none => none
    | some content =>
      let segs := parseImages allowed content
      if segs.any isImageSeg then some { e with content := Content.items segs }
      else some e

/-- Embeds ImageParsingHistoryProcessor.__call__. -/
def imageParseRun (allowed : List Str) : List HistoryItem → Option (List HistoryItem)
  | [] => some []
  | e :: rest =>
    match processEntry allowed e with
    | none => none
    | some e2 =>
      match imageParseRun allowed rest with
      | none => none
      | some r => some (e2 :: r)

/-! ## DefaultHistoryProcessor and shared spec predicates -/

/-- Embeds DefaultHistoryProcessor.__call__. -/
def defaultRun (h : List HistoryItem) : List HistoryItem := h

/-- Data model invariant used by the cache control theorems: segment
sequences are nonempty. -/
def wfHistory (h : List HistoryItem) : Bool :=
  h.all (fun e =>
    match e.content with
    | Content.items [] => false
    | _ => true)

/-- The text contributed by a segment to the reconstruction of the
original string: a text segment contributes its text, an image segment
stands for the data URI that the markdown around it enclosed (its url
without the leading data scheme prefix of five characters). -/
def segContrib : ContentItem → Str
  | ContentItem.text t _ => t
  | ContentItem.image u _ => u.drop 5

/-- Concatenation of the segment contributions. -/
def reconstructSegs (l : List ContentItem) : Str :=
  l.foldr (fun seg acc => segContrib seg ++ acc) []

/-! ## Concrete records used by witnesses and counterexamples -/

/-- A two-line non-demo observation record. -/
def obsPlain : HistoryItem :=
  { role := "user", content := Content.str (("a\nb").toList),
    message_type := some ("observation") }

/-- The same observation carrying an always-remove tag. -/
def obsRemove : HistoryItem :=
  { obsPlain with tags := ["remove_output"] }

/-- A demo observation carrying an always-remove tag. -/
def obsRemoveDemo : HistoryItem :=
  { obsRemove with is_demo := true }

/-- A demo observation with no tags. -/
def obsDemoPlain : HistoryItem :=
  { obsPlain with is_demo := true }

/-- The default elision configuration of the documentation (n = 5). -/
def cfgN5 : LastNObservations := { n := 5 }

/-- An elision configuration keeping a single observation. -/
def cfgN1 : LastNObservations := { n := 1 }

/-- A non-demo user record showing window lines without a file identifier. -/
def cwNoFile : HistoryItem :=
  { role := "user", content := Content.str (("1:foo").toList) }

/-- An action record calling the function named edit. -/
def actEdit : HistoryItem :=
  { role := "assistant", content := Content.str (("run").toList),
    message_type := some ("action"), tool_calls := ["edit"] }

/-- A tag propagation configuration selecting the function named edit. -/
def cfgTagEdit : TagToolCallObservations := { function_names := ["edit"] }

/-- A user record whose text embeds one allowed image. -/
def imgEntry : HistoryItem :=
  { role := "user",
    content := Content.str (("x![a](data:image/png;base64,AA)y").toList) }

/-- A record whose content holds a multi-line diff block. -/
def diffEntry : HistoryItem :=
  { role := "user", content := Content.str (("before<diff>X\nY</diff>after").toList) }

/-- Three identical two-line observations (with n = 1 the middle one is
elided). -/
def obs3 : List HistoryItem := [obsPlain, obsPlain, obsPlain]

/-- Reassembling a scan result: the interleaved text pieces and markdown
of each match followed by the trailing text. -/
def recomposeScan (ms : List ImgMatch) (trail : Str) : Str :=
  ms.foldr (fun m acc => m.pre ++ mdText m ++ acc) trail

/-! Lemmas about the elision loop. -/

lemma elideFrom_get? (cfg : LastNObservations) (om : List Nat) :
    ∀ (l : List HistoryItem) (k j : Nat) (r : List HistoryItem) (e : HistoryItem),
      elideFrom cfg om k l = some r → l.get? j = some e →
      r.get? j = elideEntry cfg om (k + j) e := by
  intro l
  induction l with
  | nil => intro k j r e _ hj; simp at hj
  | cons a rest ih =>
    intro k j r e hr hj
    simp only [elideFrom] at hr
    cases ha : elideEntry cfg om k a with
    | none => rw [ha] at hr; exact absurd hr (by simp)
    | some a2 =>
      rw [ha] at hr
      cases hrest : elideFrom cfg om (k + 1) rest with
      | none => rw [hrest] at hr; exact absurd hr (by simp)
      | some r2 =>
        rw [hrest] at hr
        simp only [Option.some.injEq] at hr
        subst hr
        cases j with
        | zero => simp at hj; subst hj; simpa using ha.symm
        | succ j2 =>
          simp only [List.get?] at hj ⊢
          have := ih (k + 1) j2 r2 e hrest hj
          rw [this]
          congr 1
          omega

lemma obsIndicesFrom_lb :
    ∀ (l : List HistoryItem) (k j : Nat), j ∈ obsIndicesFrom k l → k ≤ j := by
  intro l
  induction l with
  | nil => intro k j hj; simp [obsIndicesFrom] at hj
  | cons a rest ih =>
    intro k j hj
    simp only [obsIndicesFrom] at hj
    by_cases hc : a.message_type = some ("observation") ∧ a.is_demo = false
    · rw [if_pos hc] at hj
      rcases List.mem_cons.mp hj with h1 | h2
      · omega
      · have := ih (k + 1) j h2; omega
    · rw [if_neg hc] at hj
      have := ih (k + 1) j hj; omega

lemma obsIndicesFrom_sorted :
    ∀ (l : List HistoryItem) (k : Nat), (obsIndicesFrom k l).Pairwise (· < ·) := by
  intro l
  induction l with
  | nil => intro k; simp [obsIndicesFrom]
  | cons a rest ih =>
    intro k
    simp only [obsIndicesFrom]
    by_cases hc : a.message_type = some ("observation") ∧ a.is_demo = false
    · rw [if_pos hc]
      refine List.pairwise_cons.mpr ⟨?_, ih (k + 1)⟩
      intro j hj
      have := obsIndicesFrom_lb rest (k + 1) j hj
      omega
    · rw [if_neg hc]; exact ih (k + 1)

lemma obsIndicesFrom_mem_obs :
    ∀ (l : List HistoryItem) (k j : Nat), j ∈ obsIndicesFrom k l →
      ∃ e, l.get? (j - k) = some e ∧
        e.message_type = some ("observation") ∧ e.is_demo = false := by
  intro l
  induction l with
  | nil => intro k j hj; simp [obsIndicesFrom] at hj
  | cons a rest ih =>
    intro k j hj
    simp only [obsIndicesFrom] at hj
    by_cases hc : a.message_type = some ("observation") ∧ a.is_demo = false
    · rw [if_pos hc] at hj
      rcases List.mem_cons.mp hj with h1 | h2
      · subst h1
        exact ⟨a, by simp, hc⟩
      · have hlb := obsIndicesFrom_lb rest (k + 1) j h2
        obtain ⟨e, he, hobs⟩ := ih (k + 1) j h2
        refine ⟨e, ?_, hobs⟩
        have hk : j - k = (j - (k + 1)) + 1 := by omega
        rw [hk]
        simpa using he
    · rw [if_neg hc] at hj
      have hlb := obsIndicesFrom_lb rest (k + 1) j hj
      obtain ⟨e, he, hobs⟩ := ih (k + 1) j hj
      refine ⟨e, ?_, hobs⟩
      have hk : j - k = (j - (k + 1)) + 1 := by omega
      rw [hk]
      simpa using he

/-- Any omitted index is an index of a non-demo observation record. -/
lemma omitIndices_mem_obs (cfg : LastNObservations) (h : List HistoryItem)
    (i : Nat) (hi : i ∈ omitIndices cfg h) :
    ∃ e, h.get? i = some e ∧
      e.message_type = some ("observation") ∧ e.is_demo = false := by
  have hmem : i ∈ obsIndicesFrom 0 h := by
    have h1 : i ∈ (obsIndicesFrom 0 h).drop 1 :=
      List.mem_of_mem_take (by simpa [omitIndices] using hi)
    exact List.mem_of_mem_drop h1
  have := obsIndicesFrom_mem_obs h 0 i hmem
  simpa using this

lemma option_map_cons_eq_some {o : Option (List HistoryItem)} {x : HistoryItem}
    {r : List HistoryItem} (h : o.map (x :: ·) = some r) :
    ∃ r2, o = some r2 ∧ r = x :: r2 := by
  cases o with
  | none => simp at h
  | some r2 => exact ⟨r2, rfl, by simpa using h.symm⟩

/-- The reverse scan of Window-Collapse preserves the demo records. -/
lemma cwAux_filter_demo :
    ∀ (l : List HistoryItem) (w : List Str) (r : List HistoryItem),
      cwAux w l = some r →
      r.filter (fun e => e.is_demo) = l.filter (fun e => e.is_demo) := by
  intro l
  induction l with
  | nil =>
    intro w r hr
    simp only [cwAux, Option.some.injEq] at hr
    subst hr; rfl
  | cons e rest ih =>
    intro w r hr
    simp only [cwAux] at hr
    split at hr
    · obtain ⟨r2, hr2, hc⟩ := option_map_cons_eq_some hr
      subst hc
      simp only [List.filter_cons, ih w r2 hr2]
    · split at hr
      · obtain ⟨r2, hr2, hc⟩ := option_map_cons_eq_some hr
        subst hc
        simp only [List.filter_cons, ih w r2 hr2]
      · next hdemo =>
        split at hr
        · exact absurd hr (by simp)
        · next s hcon =>
          split at hr
          · split at hr
            · rw [ih w r hr]
              simp only [List.filter_cons]
              rw [if_neg (by simpa using hdemo)]
            · next f hfile =>
              split at hr
              · obtain ⟨r2, hr2, hc⟩ := option_map_cons_eq_some hr
                subst hc
                simp only [List.filter_cons]
                rw [ih (f :: w) r2 hr2]
                have hd2 : ({ e with content := Content.str (rewriteWindow s) } : HistoryItem).is_demo = e.is_demo := rfl
                rw [hd2, if_neg (by simpa using hdemo), if_neg (by simpa using hdemo)]
              · obtain ⟨r2, hr2, hc⟩ := option_map_cons_eq_some hr
                subst hc
                simp only [List.filter_cons, ih (f :: w) r2 hr2]
          · obtain ⟨r2, hr2, hc⟩ := option_map_cons_eq_some hr
            subst hc
            simp only [List.filter_cons, ih w r2 hr2]

/-- C6: an observation record whose tags intersect the always-remove set is
collapsed to the elision summary built from its original content, whatever
its position and its other tags. -/
theorem remove_tagged_always_collapsed (cfg : LastNObservations)
    (h out : List HistoryItem) (i : Nat) (e : HistoryItem)
    (hrun : lastNApply cfg h = some out) (hi : h.get? i = some e)
    (hobs : e.message_type = some ("observation"))
    (hrem : tagsIntersect e.tags cfg.always_remove_output_for_tags = true) :
    out.get? i = some { e with content := summaryContent e.content } := by
  have hg := elideFrom_get? cfg (omitIndices cfg h) h 0 i out e hrun hi
  rw [hg]
  simp [elideEntry, hrem, hobs]

/-- Witness for remove_tagged_always_collapsed: the elision summary of a
two-line removed observation. -/
theorem remove_tagged_always_collapsed_witness :
    ([{ obsRemove with content := summaryContent obsRemove.content }] : List HistoryItem).get? 0 =
      some { obsRemove with content := summaryContent obsRemove.content } :=
  remove_tagged_always_collapsed cfgN5 [obsRemove]
    [{ obsRemove with content := summaryContent obsRemove.content }] 0 obsRemove
    (by decide) (by decide) (by decide) (by decide)

/-- C2 (counterexample): a demo observation tagged with an always-remove
tag is collapsed by Elision, so its content is not returned unchanged. -/
theorem demo_record_collapsed_counterexample :
    lastNApply cfgN5 [obsRemoveDemo] =
      some [{ obsRemoveDemo with content := summaryContent obsRemoveDemo.content }] ∧
    ¬ ({ obsRemoveDemo with content := summaryContent obsRemoveDemo.content }).content
        = obsRemoveDemo.content := by
  decide

/-- C2 (amended): a demo record whose tags avoid the always-remove set is
returned unchanged by Elision, and Window-Collapse preserves the demo
records (their subsequence, with contents, is untouched). -/
theorem demo_records_amended :
    (∀ (cfg : LastNObservations) (h out : List HistoryItem) (i : Nat) (e : HistoryItem),
      lastNApply cfg h = some out → h.get? i = some e → e.is_demo = true →
      tagsIntersect e.tags cfg.always_remove_output_for_tags = false →
      out.get? i = some e) ∧
    (∀ (h out : List HistoryItem), closedWindowRun h = some out →
      out.filter (fun e => e.is_demo) = h.filter (fun e => e.is_demo)) := by
  constructor
  · intro cfg h out i e hrun hi hdemo hrem
    have hg := elideFrom_get? cfg (omitIndices cfg h) h 0 i out e hrun hi
    rw [hg]
    have hnot : ¬ i ∈ omitIndices cfg h := by
      intro hmem
      obtain ⟨e2, he2, _, hnd⟩ := omitIndices_mem_obs cfg h i hmem
      rw [hi] at he2
      have : e = e2 := by simpa using he2
      rw [← this] at hnd
      rw [hdemo] at hnd
      exact absurd hnd (by simp)
    simp [elideEntry, hnot, hrem]
  · intro h out hrun
    simp only [closedWindowRun] at hrun
    obtain ⟨r, hr, hout⟩ := Option.map_eq_some'.mp hrun
    have hfd := cwAux_filter_demo h.reverse [] r hr
    rw [← hout]
    rw [List.filter_reverse, hfd, List.filter_reverse, List.reverse_reverse]

/-- Witness for demo_records_amended at a single demo observation. -/
theorem demo_records_amended_witness :
    (([obsDemoPlain] : List HistoryItem).get? 0 = some obsDemoPlain) ∧
    (([obsDemoPlain] : List HistoryItem).filter (fun e => e.is_demo)
      = [obsDemoPlain].filter (fun e => e.is_demo)) :=
  ⟨demo_records_amended.1 cfgN5 [obsDemoPlain] [obsDemoPlain] 0 obsDemoPlain
      (by decide) (by decide) (by decide) (by decide),
   demo_records_amended.2 [obsDemoPlain] [obsDemoPlain] (by decide)⟩

/-- C5 (counterexample): the very first observation (index 0 of the
observation index list) is collapsed when it carries an always-remove
tag, so its content is changed in the output. -/
theorem first_observation_removed_by_tag_counterexample :
    obsIndicesFrom 0 [obsRemove] = [0] ∧
    lastNApply cfgN5 [obsRemove] =
      some [{ obsRemove with content := summaryContent obsRemove.content }] ∧
    ¬ ({ obsRemove with content := summaryContent obsRemove.content }).content
        = obsRemove.content := by
  decide

/-- C5 (amended): for a positive n and polling, the first non-demo
observation record is never collapsed by the recency rule: if its tags
avoid the always-remove set, it is returned unchanged. -/
theorem first_observation_never_elided (cfg : LastNObservations)
    (h out : List HistoryItem) (i : Nat) (rest : List Nat) (e : HistoryItem)
    (_hn : 1 ≤ cfg.n) (_hp : 1 ≤ cfg.polling)
    (hrun : lastNApply cfg h = some out)
    (hobs : obsIndicesFrom 0 h = i :: rest)
    (hi : h.get? i = some e)
    (hrem : tagsIntersect e.tags cfg.always_remove_output_for_tags = false) :
    out.get? i = some e := by
  have hg := elideFrom_get? cfg (omitIndices cfg h) h 0 i out e hrun hi
  rw [hg]
  have hpair := obsIndicesFrom_sorted h 0
  rw [hobs] at hpair
  have hlt : ∀ j ∈ rest, i < j := (List.pairwise_cons.mp hpair).1
  have hnot : ¬ i ∈ omitIndices cfg h := by
    intro hmem
    have hmem2 : i ∈ rest := by
      have h1 : i ∈ (obsIndicesFrom 0 h).drop 1 :=
        List.mem_of_mem_take (by simpa [omitIndices] using hmem)
      rw [hobs] at h1
      simpa using h1
    exact absurd (hlt i hmem2) (by omega)
  simp [elideEntry, hnot, hrem]

/-- Witness for first_observation_never_elided. -/
theorem first_observation_never_elided_witness :
    ([obsPlain] : List HistoryItem).get? 0 = some obsPlain :=
  first_observation_never_elided cfgN1 [obsPlain] [obsPlain] 0 [] obsPlain
    (by decide) (by decide) (by decide) (by decide) (by decide) (by decide)

lemma sameExceptContent_refl (e : HistoryItem) : sameExceptContent e e :=
  ⟨rfl, rfl, rfl, rfl, rfl, rfl⟩

/-- The reverse scan of Window-Collapse emits, in order, exactly the kept
records, each changed at most in its content. -/
lemma cwAux_forall2 :
    ∀ (l : List HistoryItem) (w : List Str) (r : List HistoryItem),
      cwAux w l = some r →
      List.Forall₂ sameExceptContent (l.filter keepPredCW) r := by
  intro l
  induction l with
  | nil =>
    intro w r hr
    simp only [cwAux, Option.some.injEq] at hr
    subst hr
    simp
  | cons e rest ih =>
    intro w r hr
    simp only [cwAux] at hr
    split at hr
    · next hrole =>
      obtain ⟨r2, hr2, hc⟩ := option_map_cons_eq_some hr
      subst hc
      have hk : keepPredCW e = true := by simp [keepPredCW, hrole]
      rw [List.filter_cons, if_pos hk]
      exact List.Forall₂.cons (sameExceptContent_refl e) (ih w r2 hr2)
    · next hrole =>
      split at hr
      · next hdemo =>
        obtain ⟨r2, hr2, hc⟩ := option_map_cons_eq_some hr
        subst hc
        have hk : keepPredCW e = true := by simp [keepPredCW, hdemo]
        rw [List.filter_cons, if_pos hk]
        exact List.Forall₂.cons (sameExceptContent_refl e) (ih w r2 hr2)
      · next hdemo =>
        split at hr
        · exact absurd hr (by simp)
        · next s hcon =>
          split at hr
          · next hwin =>
            split at hr
            · next hfile =>
              have hk : keepPredCW e = false := by
                simp [keepPredCW, hcon, hwin, hfile, not_not.mp hrole]
                simpa using hdemo
              rw [List.filter_cons, if_neg (by simp [hk])]
              exact ih w r hr
            · next f hfile =>
              split at hr
              · obtain ⟨r2, hr2, hc⟩ := option_map_cons_eq_some hr
                subst hc
                have hk : keepPredCW e = true := by simp [keepPredCW, hcon, hfile]
                rw [List.filter_cons, if_pos hk]
                exact List.Forall₂.cons ⟨rfl, rfl, rfl, rfl, rfl, rfl⟩ (ih (f :: w) r2 hr2)
              · obtain ⟨r2, hr2, hc⟩ := option_map_cons_eq_some hr
                subst hc
                have hk : keepPredCW e = true := by simp [keepPredCW, hcon, hfile]
                rw [List.filter_cons, if_pos hk]
                exact List.Forall₂.cons (sameExceptContent_refl e) (ih (f :: w) r2 hr2)
          · next hwin =>
            obtain ⟨r2, hr2, hc⟩ := option_map_cons_eq_some hr
            subst hc
            have hk : keepPredCW e = true := by simp [keepPredCW, hcon, hwin]
            rw [List.filter_cons, if_pos hk]
            exact List.Forall₂.cons (sameExceptContent_refl e) (ih w r2 hr2)

/-- C1 (counterexample): a non-demo user record with line-number matches
but no file identifier is dropped from the output of Window-Collapse, not
returned unchanged. -/
theorem closedWindow_drops_unidentified_counterexample :
    cwNoFile.role = "user" ∧ cwNoFile.is_demo = false ∧
    cwNoFile.content = Content.str (("1:foo").toList) ∧
    hasWindowLines (("1:foo").toList) = true ∧
    fileOf (("1:foo").toList) = none ∧
    closedWindowRun [cwNoFile] = some [] := by
  decide

/-- C1 (amended): Window-Collapse returns the records in order with only
content rewritten, except that every non-demo user record containing
line-number matches but no file identifier is removed from the output. -/
theorem closedWindow_record_preservation (h out : List HistoryItem)
    (hrun : closedWindowRun h = some out) :
    List.Forall₂ sameExceptContent (h.filter keepPredCW) out := by
  obtain ⟨r, hr, hout⟩ := Option.map_eq_some'.mp hrun
  have hf := cwAux_forall2 h.reverse [] r hr
  rw [List.filter_reverse] at hf
  rw [← hout]
  have := List.rel_reverse hf
  rwa [List.reverse_reverse] at this

/-- Witness for closedWindow_record_preservation. -/
theorem closedWindow_record_preservation_witness :
    List.Forall₂ sameExceptContent (([obsPlain] : List HistoryItem).filter keepPredCW)
      [obsPlain] :=
  closedWindow_record_preservation [obsPlain] [obsPlain] (by decide)

/-! Lemmas about cache control. -/

lemma clearCC_role (e : HistoryItem) : (clearCC e).role = e.role := rfl

lemma setCC_role (e : HistoryItem) : (setCC e).role = e.role := by
  unfold setCC
  cases e.content <;> dsimp <;> split <;> rfl

lemma clearItemCC_setItemCC (x : ContentItem) : clearItemCC (setItemCC x) = clearItemCC x := by
  cases x <;> rfl

lemma clearItemCC_idem (x : ContentItem) : clearItemCC (clearItemCC x) = clearItemCC x := by
  cases x <;> rfl

lemma map_clearItemCC_idem (l : List ContentItem) :
    (l.map clearItemCC).map clearItemCC = l.map clearItemCC := by
  induction l with
  | nil => rfl
  | cons x xs ih => simp [clearItemCC_idem, ih]

lemma clearCC_idem (e : HistoryItem) : clearCC (clearCC e) = clearCC e := by
  unfold clearCC
  cases e.content with
  | str s => rfl
  | items l => simp; exact fun a _ => clearItemCC_idem a

lemma setCC_clear_set (e : HistoryItem) :
    setCC (clearCC (setCC (clearCC e))) = setCC (clearCC e) := by
  cases hc : e.content with
  | str s =>
    by_cases hrole : e.role = "tool" <;>
      simp [clearCC, setCC, setHeadCC, clearHeadCC, setItemCC, clearItemCC, hc, hrole]
  | items l =>
    cases l with
    | nil =>
      by_cases hrole : e.role = "tool" <;>
        simp [clearCC, setCC, setHeadCC, clearHeadCC, hc, hrole]
    | cons x xs =>
      by_cases hrole : e.role = "tool" <;>
        simp [clearCC, setCC, setHeadCC, clearHeadCC, hc, hrole,
          clearItemCC_setItemCC, clearItemCC_idem, map_clearItemCC_idem]

lemma ccEligible_set_clear (cfg : CacheControlHistoryProcessor) (i : Nat) (e : HistoryItem) :
    ccEligible cfg i (setCC (clearCC e)) = ccEligible cfg i e := by
  unfold ccEligible
  rw [setCC_role, clearCC_role]

lemma ccEligible_clear (cfg : CacheControlHistoryProcessor) (i : Nat) (e : HistoryItem) :
    ccEligible cfg i (clearCC e) = ccEligible cfg i e := by
  unfold ccEligible
  rw [clearCC_role]

/-- The cache control loop is idempotent. -/
lemma ccAux_idem (cfg : CacheControlHistoryProcessor) :
    ∀ (l : List HistoryItem) (i : Nat) (t : Int),
      ccAux cfg i t (ccAux cfg i t l) = ccAux cfg i t l := by
  intro l
  induction l with
  | nil => intro i t; rfl
  | cons e rest ih =>
    intro i t
    simp only [ccAux]
    split
    · next hcond =>
      simp only [ccAux]
      rw [if_pos (by rw [ccEligible_set_clear]; exact hcond)]
      rw [setCC_clear_set, ih (i + 1) (t + 1)]
    · next hcond =>
      simp only [ccAux]
      rw [if_neg (by rw [ccEligible_clear]; exact hcond)]
      rw [clearCC_idem, ih (i + 1) t]

/-- C7: cache control tagging is idempotent: a second application returns
exactly the same records, so in particular the same record-level and
segment-level markers. -/
theorem cacheControl_markers_idempotent (cfg : CacheControlHistoryProcessor)
    (h : List HistoryItem) (_hwf : wfHistory h = true) :
    cacheControlRun cfg (cacheControlRun cfg h) = cacheControlRun cfg h := by
  unfold cacheControlRun
  rw [List.reverse_reverse]
  rw [ccAux_idem]

/-- Witness for cacheControl_markers_idempotent. -/
theorem cacheControl_markers_idempotent_witness :
    cacheControlRun {} (cacheControlRun {} [obsPlain]) = cacheControlRun {} [obsPlain] :=
  cacheControl_markers_idempotent {} [obsPlain] (by decide)

lemma ccEligCount_zero (cfg : CacheControlHistoryProcessor) (l : List HistoryItem) :
    ccEligCount cfg l 0 = 0 := rfl

lemma ccEligCount_succ (cfg : CacheControlHistoryProcessor) (l : List HistoryItem)
    (i : Nat) (e : HistoryItem) (he : l.get? i = some e) :
    ccEligCount cfg l (i + 1) =
      ccEligCount cfg l i + (if ccEligible cfg i e = true then 1 else 0) := by
  unfold ccEligCount
  have he2 : l[i]? = some e := by rwa [← List.get?_eq_getElem?]
  rw [List.take_succ, he2]
  have hlen : (l.take i).length = i := by
    have : i < l.length := List.get?_eq_some.mp he |>.1
    simp [List.length_take]
    omega
  rw [List.enum_append, List.countP_append, hlen]
  simp [List.enumFrom, List.countP_cons]

/-- The fold of the cache control loop agrees with the positionwise spec:
a record is tagged exactly when it is a candidate and fewer than
last_n_messages candidates precede it in the reverse scan. -/
lemma ccAux_eq_spec (cfg : CacheControlHistoryProcessor) :
    ∀ (r l : List HistoryItem) (i : Nat) (t : Int),
      l.drop i = r →
      t = max 0 (min cfg.last_n_messages (ccEligCount cfg l i)) →
      ccAux cfg i t r = ccSpecGo cfg l i r := by
  intro r
  induction r with
  | nil => intro l i t _ _; rfl
  | cons e rest ih =>
    intro l i t hdrop ht
    have hget : l.get? i = some e := by
      have h0 : (l.drop i).get? 0 = some e := by rw [hdrop]; rfl
      rwa [List.get?_drop, Nat.add_zero] at h0
    have hdrop2 : l.drop (i + 1) = rest := by
      have : l.drop (i + 1) = (l.drop i).drop 1 := by
        rw [List.drop_drop, Nat.add_comm]
      rw [this, hdrop]
      rfl
    have hcnt := ccEligCount_succ cfg l i e hget
    simp only [ccAux, ccSpecGo]
    by_cases hcond : (t < cfg.last_n_messages ∧ ccEligible cfg i e = true)
    · rw [if_pos hcond]
      have hcc : (ccEligCount cfg l i : Int) < cfg.last_n_messages := by omega
      rw [if_pos ⟨hcc, hcond.2⟩]
      have hc1 : ccEligCount cfg l (i + 1) = ccEligCount cfg l i + 1 := by
        rw [hcnt, if_pos hcond.2]
      have hrec := ih l (i + 1) (t + 1) hdrop2 (by rw [hc1]; push_cast; omega)
      rw [hrec]
    · rw [if_neg hcond]
      have hnc : ¬ ((ccEligCount cfg l i : Int) < cfg.last_n_messages ∧
          ccEligible cfg i e = true) := by
        intro hcc
        exact hcond ⟨by omega, hcc.2⟩
      rw [if_neg hnc]
      by_cases helig : ccEligible cfg i e = true
      · have hc1 : ccEligCount cfg l (i + 1) = ccEligCount cfg l i + 1 := by
          rw [hcnt, if_pos helig]
        have hge : cfg.last_n_messages ≤ t := by
          by_contra hlt
          exact hcond ⟨by omega, helig⟩
        have hrec := ih l (i + 1) t hdrop2 (by rw [hc1]; push_cast; omega)
        rw [hrec]
      · have hc0 : ccEligCount cfg l (i + 1) = ccEligCount cfg l i := by
          rw [hcnt, if_neg helig]
          omega
        have hrec := ih l (i + 1) t hdrop2 (by rw [hc0]; omega)
        rw [hrec]

/-! Lemmas about tag propagation. -/

lemma shouldAddTags_addTagsTo (cfg : TagToolCallObservations) (e : HistoryItem) :
    shouldAddTags cfg (addTagsTo cfg e) = shouldAddTags cfg e := rfl

lemma addTagsTo_idem (cfg : TagToolCallObservations) (e : HistoryItem) :
    addTagsTo cfg (addTagsTo cfg e) = addTagsTo cfg e := by
  unfold addTagsTo
  have hnil : cfg.tags.filter
      (fun t => decide (¬ t ∈ e.tags ++ cfg.tags.filter (fun t => decide (¬ t ∈ e.tags)))) = [] := by
    rw [List.filter_eq_nil_iff]
    intro t ht
    simp only [decide_eq_true_eq, not_not, List.mem_append, List.mem_filter, decide_eq_true_eq]
    tauto
  simp [hnil]
  exact fun a ha hna => ⟨ha, hna⟩

lemma tagToolCallRun_idem (cfg : TagToolCallObservations) :
    ∀ h, tagToolCallRun cfg (tagToolCallRun cfg h) = tagToolCallRun cfg h := by
  intro h
  induction h with
  | nil => rfl
  | cons e r ih =>
    simp only [tagToolCallRun]
    by_cases hs : shouldAddTags cfg e = true
    · rw [if_pos hs, shouldAddTags_addTagsTo, if_pos hs, addTagsTo_idem, ih]
    · rw [if_neg hs, if_neg hs, ih]

/-- C10: with the default configuration (empty function name set), tag
propagation is the identity on every history. -/
theorem tagToolCall_default_identity (h : List HistoryItem) :
    tagToolCallRun {} h = h := by
  induction h with
  | nil => rfl
  | cons e r ih =>
    simp only [tagToolCallRun]
    have hs : shouldAddTags {} e = false := by
      simp [shouldAddTags]
    rw [if_neg (by simp [hs]), ih]

/-- C3 (counterexample): tag propagation mutates the matching records of
the caller's list in place, so after the call the input differs from its
original value. -/
theorem tagToolCall_mutates_input_counterexample :
    tagToolCallAfterCall cfgTagEdit [actEdit] = [{ actEdit with tags := ["keep_output"] }] ∧
    ¬ ({ actEdit with tags := ["keep_output"] } : HistoryItem) = actEdit := by
  decide

/-- C3 (amended): TagToolCallObservations and CacheControlHistoryProcessor
mutate the records of the caller's list in place, so after the call the
input list carries exactly the value of the returned history (which can
differ from the value the input held before the call). -/
theorem inplace_mutation_tracks_output :
    (∀ (cfg : TagToolCallObservations) (h : List HistoryItem),
      tagToolCallAfterCall cfg h = tagToolCallRun cfg h) ∧
    (∀ (cfg : CacheControlHistoryProcessor) (h : List HistoryItem),
      cacheControlAfterCall cfg h = cacheControlRun cfg h) := by
  constructor
  · intro cfg h
    induction h with
    | nil => rfl
    | cons e r ih =>
      simp only [tagToolCallAfterCall, List.map_cons, tagToolCallRun] at *
      rw [ih]
  · intro cfg h
    unfold cacheControlRun cacheControlAfterCall
    congr 1
    exact (ccAux_eq_spec cfg h.reverse h.reverse 0 0 (by simp)
      (by rw [ccEligCount_zero]; push_cast; omega)).symm

/-! Lemmas about regex redaction. -/

/-- C8: with the default pattern and keep_last = 1, the middle record of a
three-record history holding a multi-line diff block is redacted across
the line break, and the last record passes unchanged whatever its
content. -/
theorem removeRegex_scenario (e1 e2 e3 : HistoryItem)
    (h2 : e2.content = Content.str (("before<diff>X\nY</diff>after").toList)) :
    ((removeRegexRun 1 [e1, e2, e3]).get? 1).map HistoryItem.content
        = some (Content.str (("beforeafter").toList)) ∧
    (removeRegexRun 1 [e1, e2, e3]).get? 2 = some e3 := by
  have hrun : removeRegexRun 1 [e1, e2, e3]
      = [removeRegexEntry e1, removeRegexEntry e2, e3] := by
    simp [removeRegexRun, removeRegexAux]
  have hd : removeDiff (("before<diff>X\nY</diff>after").toList) = ("beforeafter").toList := by
    decide
  have hcont : (removeRegexEntry e2).content = Content.str (("beforeafter").toList) := by
    simp [removeRegexEntry, h2]
    exact hd
  rw [hrun]
  exact ⟨by simp [hcont], rfl⟩

/-- Witness for removeRegex_scenario. -/
theorem removeRegex_scenario_witness :
    ((removeRegexRun 1 [obsPlain, diffEntry, obsPlain]).get? 1).map HistoryItem.content
        = some (Content.str (("beforeafter").toList)) ∧
    (removeRegexRun 1 [obsPlain, diffEntry, obsPlain]).get? 2 = some obsPlain :=
  removeRegex_scenario obsPlain diffEntry obsPlain (by decide)

/-! Lemmas about image parsing. -/

lemma recomposeScan_nil (t : Str) : recomposeScan [] t = t := rfl

lemma recomposeScan_cons (m : ImgMatch) (ms : List ImgMatch) (t : Str) :
    recomposeScan (m :: ms) t = m.pre ++ mdText m ++ recomposeScan ms t := rfl

lemma dropLit_sound (pat s r : Str) (h : dropLit pat s = some r) : s = pat ++ r := by
  unfold dropLit at h
  split at h
  · next hpre =>
    simp only [Option.some.injEq] at h
    subst h
    obtain ⟨t, ht⟩ := List.isPrefixOf_iff_prefix.mp hpre
    conv_lhs => rw [← ht]
    rw [← ht, List.drop_left]
  · exact absurd h (by simp)

lemma splitAtChar_sound (c : Char) :
    ∀ (s a b : Str), splitAtChar c s = some (a, b) → s = a ++ c :: b := by
  intro s
  induction s with
  | nil => intro a b h; simp [splitAtChar] at h
  | cons d rest ih =>
    intro a b h
    simp only [splitAtChar] at h
    split at h
    · next hd =>
      simp only [Option.some.injEq, Prod.mk.injEq] at h
      rw [← h.1, ← h.2, hd]
      rfl
    · next hd =>
      cases hsp : splitAtChar c rest with
      | none => rw [hsp] at h; simp at h
      | some p =>
        rw [hsp] at h
        simp only [Option.map_some', Option.some.injEq, Prod.mk.injEq] at h
        rw [← h.1, ← h.2]
        have := ih p.1 p.2 (by rw [hsp])
        simp [this]

lemma tryImageAt_sound (s alt mime payload after : Str)
    (h : tryImageAt s = some (alt, mime, payload, after)) :
    s = '!' :: '[' :: alt ++ ']' :: '(' :: ("data:".toList) ++ mime
      ++ ';' :: ("base64,".toList) ++ payload ++ ')' :: after := by
  unfold tryImageAt at h
  split at h
  case _ r0 =>
    split at h
    · exact absurd h (by simp)
    · next a1 r1 h1 =>
      split at h
      · exact absurd h (by simp)
      · next r2 h2 =>
        split at h
        · exact absurd h (by simp)
        · next mi r3 h3 =>
          split at h
          · exact absurd h (by simp)
          · next hmi =>
            split at h
            · exact absurd h (by simp)
            · next r4 h4 =>
              split at h
              · exact absurd h (by simp)
              · next pay r5 h5 =>
                split at h
                · exact absurd h (by simp)
                · next hpay =>
                  simp only [Option.some.injEq, Prod.mk.injEq] at h
                  obtain ⟨ha, hm, hp, hr⟩ := h
                  subst ha; subst hm; subst hp; subst hr
                  have e1 := splitAtChar_sound ']' r0 a1 r1 h1
                  have e2 := dropLit_sound _ r1 r2 h2
                  have e3 := splitAtChar_sound ';' r2 mi r3 h3
                  have e4 := dropLit_sound _ r3 r4 h4
                  have e5 := splitAtChar_sound ')' r4 pay r5 h5
                  rw [e1, e2, e3, e4, e5]
                  simp
  case _ => exact absurd h (by simp)

lemma tryImageAt_shorter (s alt mime payload after : Str)
    (h : tryImageAt s = some (alt, mime, payload, after)) :
    after.length < s.length := by
  have hs := tryImageAt_sound s alt mime payload after h
  rw [hs]
  simp [List.length_append]
  omega

/-- Scanning decomposes the input exactly: reassembling the matches and
the trailing text gives back the original string. -/
lemma scanFuel_recompose :
    ∀ (fuel : Nat) (s : Str), s.length ≤ fuel →
      recomposeScan (scanFuel fuel s).1 (scanFuel fuel s).2 = s := by
  intro fuel
  induction fuel with
  | zero => intro s _; rfl
  | succ f ih =>
    intro s hs
    cases s with
    | nil => rfl
    | cons c rest =>
      cases htry : tryImageAt (c :: rest) with
      | some q =>
        obtain ⟨alt, mime, payload, after⟩ := q
        have hlen : after.length ≤ f := by
          have := tryImageAt_shorter (c :: rest) alt mime payload after htry
          simp at this hs
          omega
        have hrec := ih after hlen
        simp only [scanFuel, htry]
        rw [recomposeScan_cons, hrec]
        rw [tryImageAt_sound (c :: rest) alt mime payload after htry]
        simp [mdText]
      | none =>
        have hrec := ih rest (by simp at hs; omega)
        simp only [scanFuel, htry]
        cases hsf : scanFuel f rest with
        | mk ms trail =>
          rw [hsf] at hrec
          simp only [] at hrec
          cases ms with
          | nil =>
            have htr : trail = rest := by simpa [recomposeScan] using hrec
            simp [htr, recomposeScan_nil]
          | cons m tl =>
            simp only [recomposeScan_cons] at hrec ⊢
            rw [show mdText { m with pre := c :: m.pre } = mdText m from rfl]
            simp only [List.cons_append, List.append_assoc] at hrec ⊢
            rw [hrec]

lemma addTextRev_nil_acc (t : Str) :
    addTextRev t [] = if t = [] then [] else [ContentItem.text t false] := by
  unfold addTextRev
  split <;> rfl

lemma addTextRev_text_acc (t t0 : Str) (cc : Bool) (rest : List ContentItem) :
    addTextRev t (ContentItem.text t0 cc :: rest) = ContentItem.text (t0 ++ t) cc :: rest := by
  unfold addTextRev
  split
  · next ht => rw [ht]; simp
  · rfl

lemma addTextRev_image_acc (t : Str) (ht : ¬ t = []) (u : Str) (cc : Bool)
    (rest : List ContentItem) :
    addTextRev t (ContentItem.image u cc :: rest)
      = ContentItem.text t false :: ContentItem.image u cc :: rest := by
  unfold addTextRev
  rw [if_neg ht]

lemma normalizeJpg_default (m : Str) (h : m ∈ defaultAllowed) : normalizeJpg m = m := by
  simp only [defaultAllowed, List.mem_cons, List.not_mem_nil, or_false] at h
  rcases h with h | h | h <;> subst h <;> decide

lemma dataUri_drop5 (a b : Str) :
    (dataUri a b).drop 5 = a ++ (";base64,".toList) ++ b := by
  unfold dataUri
  rw [List.append_assoc, List.append_assoc]
  rw [show (5 : Nat) = ("data:".toList).length from rfl, List.drop_left]
  rw [List.append_assoc]

/-- C9: round trip of image segmentation.  A string without image markdown
is returned as a single unchanged text segment; a string with exactly one
image markdown match whose MIME type is in the default allowed set yields
exactly one image segment carrying the original data URI, and
concatenating the segment contributions (the markdown around the image is
in the text segments, the image segment stands for the data URI)
reconstructs the original string. -/
theorem imageParse_roundtrip (s1 s2 : Str) (m : ImgMatch) (trail : Str)
    (h1 : (scanImages s1).1 = [])
    (h2 : scanImages s2 = ([m], trail))
    (hmime : m.mime ∈ defaultAllowed) :
    parseImages defaultAllowed s1 = [ContentItem.text s1 false] ∧
    (parseImages defaultAllowed s2).filter isImageSeg
        = [ContentItem.image (dataUri m.mime m.payload) false] ∧
    reconstructSegs (parseImages defaultAllowed s2) = s2 := by
  have hs2 : s2 = m.pre ++ mdText m ++ trail := by
    have hr := scanFuel_recompose s2.length s2 (le_refl _)
    rw [show scanFuel s2.length s2 = ([m], trail) from h2] at hr
    rw [recomposeScan_cons, recomposeScan_nil] at hr
    exact hr.symm
  have hnorm : normalizeJpg m.mime = m.mime := normalizeJpg_default m.mime hmime
  have hopen : ¬ mdOpenText m = [] := by simp [mdOpenText]
  refine ⟨?_, ?_⟩
  · unfold parseImages
    cases hsc : scanImages s1 with
    | mk ms tr =>
      rw [hsc] at h1
      simp only [] at h1
      subst h1
      simp [parseImagesGo]
  · by_cases hpre : m.pre = []
    · have hsegs : parseImages defaultAllowed s2
          = [ContentItem.text (mdOpenText m) false,
             ContentItem.image (dataUri m.mime m.payload) false,
             ContentItem.text (')' :: trail) false] := by
        unfold parseImages
        rw [h2]
        simp only [parseImagesGo, hnorm]
        rw [if_pos hmime, hpre]
        rw [show addTextRev ([] : Str) [] = [] from rfl]
        rw [show addTextRev (mdOpenText m) [] = [ContentItem.text (mdOpenText m) false] from by
          rw [addTextRev_nil_acc, if_neg hopen]]
        rw [addTextRev_image_acc [')'] (by simp)]
        rw [addTextRev_text_acc]
        simp
      rw [hsegs]
      constructor
      · simp [List.filter, isImageSeg]
      · simp only [reconstructSegs, segContrib, List.foldr]
        rw [dataUri_drop5, hs2, hpre]
        simp [mdOpenText, mdText, List.append_assoc]
    · have hsegs : parseImages defaultAllowed s2
          = [ContentItem.text (m.pre ++ mdOpenText m) false,
             ContentItem.image (dataUri m.mime m.payload) false,
             ContentItem.text (')' :: trail) false] := by
        unfold parseImages
        rw [h2]
        simp only [parseImagesGo, hnorm]
        rw [if_pos hmime]
        rw [show addTextRev m.pre [] = [ContentItem.text m.pre false] from by
          rw [addTextRev_nil_acc, if_neg hpre]]
        rw [addTextRev_text_acc]
        rw [addTextRev_image_acc [')'] (by simp)]
        rw [addTextRev_text_acc]
        simp
      rw [hsegs]
      constructor
      · simp [List.filter, isImageSeg]
      · simp only [reconstructSegs, segContrib, List.foldr]
        rw [dataUri_drop5, hs2]
        simp [mdOpenText, mdText, List.append_assoc]

/-- Witness for imageParse_roundtrip. -/
theorem imageParse_roundtrip_witness :
    parseImages defaultAllowed (("hello").toList)
        = [ContentItem.text (("hello").toList) false] ∧
    (parseImages defaultAllowed (("x![a](data:image/png;base64,AA)y").toList)).filter isImageSeg
        = [ContentItem.image (dataUri (("image/png").toList) (("AA").toList)) false] ∧
    reconstructSegs (parseImages defaultAllowed (("x![a](data:image/png;base64,AA)y").toList))
        = ("x![a](data:image/png;base64,AA)y").toList :=
  imageParse_roundtrip (("hello").toList) (("x![a](data:image/png;base64,AA)y").toList)
    { pre := ("x").toList, alt := ("a").toList, mime := ("image/png").toList,
      payload := ("AA").toList }
    (("y").toList) (by decide) (by decide) (by decide)

/-! Lemmas about window collapsing and its idempotence. -/

lemma digitChar_ne_nl (m : Nat) : Nat.digitChar m ≠ '\n' := by
  by_cases h16 : m < 16
  · interval_cases m <;> decide
  · intro h
    unfold Nat.digitChar at h
    iterate 16 rw [if_neg (by omega)] at h
    exact absurd h (by decide)

lemma toDigitsCore_ne_nl :
    ∀ (fuel n : Nat) (ds : List Char), (∀ c ∈ ds, c ≠ '\n') →
      ∀ c ∈ Nat.toDigitsCore 10 fuel n ds, c ≠ '\n' := by
  intro fuel
  induction fuel with
  | zero =>
    intro n ds hds c hc
    exact hds c hc
  | succ f ih =>
    intro n ds hds c hc
    have heq : Nat.toDigitsCore 10 (f + 1) n ds =
        (if n / 10 = 0 then (n % 10).digitChar :: ds
         else Nat.toDigitsCore 10 f (n / 10) ((n % 10).digitChar :: ds)) := rfl
    rw [heq] at hc
    have hds2 : ∀ c2 ∈ (n % 10).digitChar :: ds, c2 ≠ '\n' := by
      intro c2 hc2
      rcases List.mem_cons.mp hc2 with h | h
      · rw [h]; exact digitChar_ne_nl _
      · exact hds c2 h
    split at hc
    · exact hds2 c hc
    · exact ih (n / 10) _ hds2 c hc

lemma nl_not_mem_toString_nat (k : Nat) : ¬ '\n' ∈ (toString k).toList := by
  intro hmem
  have h0 : (toString k).toList = Nat.toDigits 10 k := rfl
  rw [h0] at hmem
  exact toDigitsCore_ne_nl (k + 1) k [] (by simp) '\n' hmem rfl

lemma str_toList_append (a b : String) : (a ++ b).toList = a.toList ++ b.toList :=
  String.data_append a b

lemma nl_not_mem_summaryLine (k : Nat) : ¬ '\n' ∈ summaryLine k := by
  unfold summaryLine
  rw [str_toList_append, str_toList_append]
  intro hmem
  rcases List.mem_append.mp hmem with h | h
  · rcases List.mem_append.mp h with h2 | h2
    · exact absurd h2 (by decide)
    · exact nl_not_mem_toString_nat k h2
  · exact absurd h (by decide)

lemma isWindowLine_summaryLine (k : Nat) : isWindowLine (summaryLine k) = false := by
  unfold summaryLine isWindowLine
  rw [str_toList_append, str_toList_append]
  rw [show ("Outdated window with ").toList = 'O' :: ("utdated window with ").toList from rfl]
  simp [List.takeWhile]

lemma splitNl_ne_nil : ∀ s : Str, splitNl s ≠ [] := by
  intro s
  cases s with
  | nil => simp [splitNl]
  | cons c rest =>
    simp only [splitNl]
    split
    · simp
    · split
      · simp
      · simp

lemma mem_splitNl_no_nl : ∀ (s : Str) (p : Str), p ∈ splitNl s → ¬ '\n' ∈ p := by
  intro s
  induction s with
  | nil =>
    intro p hp
    simp [splitNl] at hp
    simp [hp]
  | cons c rest ih =>
    intro p hp
    simp only [splitNl] at hp
    split at hp
    · rcases List.mem_cons.mp hp with h | h
      · simp [h]
      · exact ih p h
    · next hc =>
      cases hsp : splitNl rest with
      | nil => exact absurd hsp (splitNl_ne_nil rest)
      | cons p0 ps =>
        rw [hsp] at hp
        rcases List.mem_cons.mp hp with h | h
        · rw [h]
          intro hmem
          rcases List.mem_cons.mp hmem with h2 | h2
          · exact hc h2.symm
          · exact ih p0 (by rw [hsp]; exact List.mem_cons_self p0 ps) h2
        · exact ih p (by rw [hsp]; exact List.mem_cons_of_mem p0 h)

lemma splitNl_no_nl (s : Str) (h : ¬ '\n' ∈ s) : splitNl s = [s] := by
  induction s with
  | nil => rfl
  | cons c rest ih =>
    simp only [splitNl]
    rw [if_neg (by intro hc; exact h (by rw [hc]; exact List.mem_cons_self _ _))]
    rw [ih (by intro hm; exact h (List.mem_cons_of_mem c hm))]

lemma splitNl_append_nl (p rest : Str) (hp : ¬ '\n' ∈ p) :
    splitNl (p ++ '\n' :: rest) = p :: splitNl rest := by
  induction p with
  | nil => simp [splitNl]
  | cons c p2 ih =>
    have hc : ¬ c = '\n' := by
      intro hc
      exact hp (by rw [hc]; exact List.mem_cons_self _ _)
    simp only [List.cons_append, splitNl]
    rw [if_neg hc]
    rw [show p2.append ('\n' :: rest) = p2 ++ '\n' :: rest from rfl]
    rw [ih (by intro hm; exact hp (List.mem_cons_of_mem c hm))]

lemma splitNl_joinLinesNl (A : List Str) (x : Str) (hA : ∀ p ∈ A, ¬ '\n' ∈ p) :
    splitNl (joinLinesNl A ++ x) = A ++ splitNl x := by
  induction A with
  | nil => simp [joinLinesNl]
  | cons p A2 ih =>
    have h1 : joinLinesNl (p :: A2) = p ++ '\n' :: joinLinesNl A2 := rfl
    rw [h1, List.append_assoc, List.cons_append]
    rw [splitNl_append_nl p _ (hA p (List.mem_cons_self _ _))]
    rw [ih (fun q hq => hA q (List.mem_cons_of_mem p hq))]
    rfl

lemma splitNl_interNl (B : List Str) (hB : ∀ p ∈ B, ¬ '\n' ∈ p) (hne : B ≠ []) :
    splitNl (interNl B) = B := by
  induction B with
  | nil => exact absurd rfl hne
  | cons p B2 ih =>
    cases B2 with
    | nil =>
      have h1 : interNl [p] = p := rfl
      rw [h1, splitNl_no_nl p (hB p (List.mem_cons_self _ _))]
    | cons q B3 =>
      have h1 : interNl (p :: q :: B3) = p ++ '\n' :: interNl (q :: B3) := rfl
      rw [h1, splitNl_append_nl p _ (hB p (List.mem_cons_self _ _))]
      rw [ih (fun r hr => hB r (List.mem_cons_of_mem p hr)) (by simp)]

lemma windowIdxsFrom_lb :
    ∀ (l : List Str) (k j : Nat), j ∈ windowIdxsFrom k l → k ≤ j := by
  intro l
  induction l with
  | nil => intro k j hj; simp [windowIdxsFrom] at hj
  | cons p ps ih =>
    intro k j hj
    simp only [windowIdxsFrom] at hj
    split at hj
    · rcases List.mem_cons.mp hj with h | h
      · omega
      · have := ih (k + 1) j h; omega
    · have := ih (k + 1) j hj; omega

lemma windowIdxsFrom_nil_all :
    ∀ (l : List Str) (k : Nat), windowIdxsFrom k l = [] →
      ∀ p ∈ l, isWindowLine p = false := by
  intro l
  induction l with
  | nil => intro k _ p hp; simp at hp
  | cons q ps ih =>
    intro k hk p hp
    simp only [windowIdxsFrom] at hk
    split at hk
    · exact absurd hk (by simp)
    · next hq =>
      rcases List.mem_cons.mp hp with h | h
      · rw [h]; simpa using hq
      · exact ih (k + 1) hk p h

lemma windowIdxsFrom_all_nil :
    ∀ (l : List Str) (k : Nat), (∀ p ∈ l, isWindowLine p = false) →
      windowIdxsFrom k l = [] := by
  intro l
  induction l with
  | nil => intro k _; rfl
  | cons q ps ih =>
    intro k hall
    simp only [windowIdxsFrom]
    rw [if_neg (by simp [hall q (List.mem_cons_self _ _)])]
    exact ih (k + 1) (fun p hp => hall p (List.mem_cons_of_mem q hp))

lemma windowIdxsFrom_take :
    ∀ (ps : List Str) (k i : Nat) (tl : List Nat),
      windowIdxsFrom k ps = i :: tl →
      ∀ p ∈ ps.take (i - k), isWindowLine p = false := by
  intro ps
  induction ps with
  | nil => intro k i tl h; simp [windowIdxsFrom] at h
  | cons q rest ih =>
    intro k i tl h p hp
    simp only [windowIdxsFrom] at h
    split at h
    · next hq =>
      have hik : k = i := by simpa using congrArg (fun l => l.headD 0) h
      rw [← hik] at hp
      simp at hp
    · next hq =>
      have hlb : k + 1 ≤ i := windowIdxsFrom_lb rest (k + 1) i
        (by rw [h]; exact List.mem_cons_self _ _)
      have hik : i - k = (i - (k + 1)) + 1 := by omega
      rw [hik] at hp
      rcases List.mem_cons.mp (by simpa using hp) with h2 | h2
      · rw [h2]; simpa using hq
      · exact ih (k + 1) i tl h p h2

lemma getLastD_mem_cons_nat :
    ∀ (l : List Nat) (a d : Nat), (a :: l).getLastD d ∈ a :: l := by
  intro l
  induction l with
  | nil => intro a d; simp [List.getLastD]
  | cons b l2 ih =>
    intro a d
    rw [List.getLastD_cons]
    exact List.mem_cons_of_mem a (ih b a)

lemma windowIdxsFrom_drop :
    ∀ (ps : List Str) (k i : Nat) (tl : List Nat),
      windowIdxsFrom k ps = i :: tl →
      ∀ p ∈ ps.drop ((i :: tl).getLastD i - k + 1), isWindowLine p = false := by
  intro ps
  induction ps with
  | nil => intro k i tl h; simp [windowIdxsFrom] at h
  | cons q rest ih =>
    intro k i tl h p hp
    simp only [windowIdxsFrom] at h
    split at h
    · next hq =>
      injection h with h1 h2
      cases htl2 : windowIdxsFrom (k + 1) rest with
      | nil =>
        rw [htl2] at h2
        subst h1
        subst h2
        rw [show ([k] : List Nat).getLastD k = k from rfl, Nat.sub_self] at hp
        simp only [List.drop_succ_cons, List.drop_zero] at hp
        exact windowIdxsFrom_nil_all rest (k + 1) htl2 p hp
      | cons j tl2 =>
        rw [htl2] at h2
        subst h1
        subst h2
        have hg := getLastD_mem_cons_nat tl2 j j
        have hlb : k + 1 ≤ (j :: tl2).getLastD j :=
          windowIdxsFrom_lb rest (k + 1) _ (by rw [htl2]; exact hg)
        have hgl : (k :: j :: tl2).getLastD k = (j :: tl2).getLastD j := by
          rw [List.getLastD_cons, List.getLastD_cons, List.getLastD_cons]
        rw [hgl] at hp
        have harith : (j :: tl2).getLastD j - k + 1
            = ((j :: tl2).getLastD j - (k + 1) + 1) + 1 := by omega
        rw [harith, List.drop_succ_cons] at hp
        exact ih (k + 1) j tl2 htl2 p hp
    · next hq =>
      have hg := getLastD_mem_cons_nat tl i i
      have hlb : k + 1 ≤ (i :: tl).getLastD i :=
        windowIdxsFrom_lb rest (k + 1) _ (by rw [h]; exact hg)
      have harith : (i :: tl).getLastD i - k + 1
          = ((i :: tl).getLastD i - (k + 1) + 1) + 1 := by omega
      rw [harith, List.drop_succ_cons] at hp
      exact ih (k + 1) i tl h p hp

/-- The collapsed content of a window record contains no window lines. -/
lemma rewriteWindow_no_lines (s : Str) (hwin : hasWindowLines s = true) :
    hasWindowLines (rewriteWindow s) = false := by
  unfold hasWindowLines at hwin ⊢
  simp only [decide_eq_true_eq] at hwin
  suffices hgoal : windowIdxsFrom 0 (splitNl (rewriteWindow s)) = [] by simp [hgoal]
  cases hidx : windowIdxsFrom 0 (splitNl s) with
  | nil => exact absurd hidx hwin
  | cons i tl =>
    have hrw : rewriteWindow s = joinLinesNl ((splitNl s).take i)
        ++ summaryLine (i :: tl).length
        ++ '\n' :: interNl ((splitNl s).drop ((i :: tl).getLastD i + 1)) := by
      simp only [rewriteWindow, hidx]
    rw [hrw, List.append_assoc]
    have hA : ∀ p ∈ (splitNl s).take i, ¬ '\n' ∈ p :=
      fun p hp => mem_splitNl_no_nl s p (List.mem_of_mem_take hp)
    rw [splitNl_joinLinesNl _ _ hA]
    rw [splitNl_append_nl _ _ (nl_not_mem_summaryLine _)]
    apply windowIdxsFrom_all_nil
    intro p hp
    rcases List.mem_append.mp hp with hp1 | hp2
    · exact windowIdxsFrom_take (splitNl s) 0 i tl hidx p (by simpa using hp1)
    · rcases List.mem_cons.mp hp2 with hp3 | hp4
      · rw [hp3]; exact isWindowLine_summaryLine _
      · cases hB : (splitNl s).drop ((i :: tl).getLastD i + 1) with
        | nil =>
          rw [hB] at hp4
          have hpe : p = [] := by simpa [interNl, splitNl] using hp4
          rw [hpe]
          rfl
        | cons b bs =>
          rw [hB] at hp4
          have hBnl : ∀ q ∈ b :: bs, ¬ '\n' ∈ q := by
            intro q hq
            exact mem_splitNl_no_nl s q (List.mem_of_mem_drop (by rw [hB]; exact hq))
          rw [splitNl_interNl _ hBnl (by simp)] at hp4
          apply windowIdxsFrom_drop (splitNl s) 0 i tl hidx p
          simp only [Nat.sub_zero]
          rw [hB]
          exact hp4

/-- A second Window-Collapse pass leaves its own output unchanged, for any
smaller starting seen-set. -/
lemma cwAux_idem :
    ∀ (l : List HistoryItem) (W W' : List Str) (g : List HistoryItem),
      W' ⊆ W → cwAux W l = some g → cwAux W' g = some g := by
  intro l
  induction l with
  | nil =>
    intro W W' g _ hg
    simp only [cwAux, Option.some.injEq] at hg
    subst hg
    rfl
  | cons e rest ih =>
    intro W W' g hsub hg
    obtain ⟨erole, econt, emt, etags, edemo, etc2, ecc⟩ := e
    simp only [cwAux] at hg
    split at hg
    · next hrole =>
      obtain ⟨r2, hr2, hc⟩ := option_map_cons_eq_some hg
      subst hc
      simp only [cwAux]
      rw [if_pos hrole, ih W W' r2 hsub hr2]
      rfl
    · next hrole =>
      split at hg
      · next hdemo =>
        obtain ⟨r2, hr2, hc⟩ := option_map_cons_eq_some hg
        subst hc
        simp only [cwAux]
        rw [if_neg hrole, if_pos hdemo, ih W W' r2 hsub hr2]
        rfl
      · next hdemo =>
        split at hg
        · exact absurd hg (by simp)
        · next s =>
          split at hg
          · next hwin =>
            split at hg
            · exact ih W W' g hsub hg
            · next f hfile =>
              split at hg
              · next hmem =>
                obtain ⟨r2, hr2, hc⟩ := option_map_cons_eq_some hg
                subst hc
                simp only [cwAux]
                rw [if_neg hrole, if_neg hdemo]
                rw [if_neg (by simp [rewriteWindow_no_lines s hwin])]
                rw [ih (f :: W) W' r2 (List.Subset.trans hsub (List.subset_cons_self f W)) hr2]
                rfl
              · next hmem =>
                obtain ⟨r2, hr2, hc⟩ := option_map_cons_eq_some hg
                subst hc
                simp only [cwAux]
                rw [if_neg hrole, if_neg hdemo]
                rw [if_pos hwin]
                simp only [hfile]
                rw [if_neg (fun hmem2 => hmem (hsub hmem2))]
                rw [ih (f :: W) (f :: W') r2 (List.cons_subset_cons f hsub) hr2]
                rfl
          · next hwin =>
            obtain ⟨r2, hr2, hc⟩ := option_map_cons_eq_some hg
            subst hc
            simp only [cwAux]
            rw [if_neg hrole, if_neg hdemo]
            rw [if_neg hwin, ih W W' r2 hsub hr2]
            rfl

/-- C4 (counterexample): LastNObservations is not idempotent (a second
application rewrites the elision summary with its own line count), and a
second ImageParsingHistoryProcessor application raises on the multi-segment
content produced by the first. -/
theorem not_idempotent_counterexample :
    (lastNApply cfgN1 obs3).bind (lastNApply cfgN1) ≠ lastNApply cfgN1 obs3 ∧
    (imageParseRun defaultAllowed [imgEntry]).isSome = true ∧
    (imageParseRun defaultAllowed [imgEntry]).bind (imageParseRun defaultAllowed) = none := by
  decide

/-- C4 (amended): the default processor, tag propagation, cache control
and window collapsing are idempotent; elision and image parsing are not. -/
theorem idempotent_transformers :
    (∀ h : List HistoryItem, defaultRun (defaultRun h) = defaultRun h) ∧
    (∀ (cfg : TagToolCallObservations) (h : List HistoryItem),
      tagToolCallRun cfg (tagToolCallRun cfg h) = tagToolCallRun cfg h) ∧
    (∀ (cfg : CacheControlHistoryProcessor) (h : List HistoryItem), wfHistory h = true →
      cacheControlRun cfg (cacheControlRun cfg h) = cacheControlRun cfg h) ∧
    (∀ (h g : List HistoryItem), closedWindowRun h = some g → closedWindowRun g = some g) := by
  refine ⟨fun h => rfl, tagToolCallRun_idem, ?_, ?_⟩
  · intro cfg h _hwf
    unfold cacheControlRun
    rw [List.reverse_reverse, ccAux_idem]
  · intro h g hg
    unfold closedWindowRun at hg ⊢
    obtain ⟨r, hr, hrev⟩ := Option.map_eq_some'.mp hg
    rw [← hrev, List.reverse_reverse]
    rw [cwAux_idem h.reverse [] [] r (List.nil_subset _) hr]
    simp [hrev]

/-- Witness for idempotent_transformers. -/
theorem idempotent_transformers_witness :
    (defaultRun (defaultRun ([] : List HistoryItem)) = defaultRun []) ∧
    (tagToolCallRun cfgTagEdit (tagToolCallRun cfgTagEdit [actEdit])
      = tagToolCallRun cfgTagEdit [actEdit]) ∧
    (cacheControlRun {} (cacheControlRun {} [obsPlain]) = cacheControlRun {} [obsPlain]) ∧
    (closedWindowRun ([] : List HistoryItem) = some []) :=
  ⟨idempotent_transformers.1 [],
   idempotent_transformers.2.1 cfgTagEdit [actEdit],
   idempotent_transformers.2.2.1 {} [obsPlain] (by decide),
   idempotent_transformers.2.2.2 [cwNoFile] [] (by decide)⟩
